import Mathlib

/-!
Shallow embedding of `src/data_structures/binary_tree/binary_tree_traversals.py`.

The Python module defines a `Node` dataclass (an `Int` payload and two optional
children), a sample-tree builder, and a family of traversals implemented as
generators.  Generators are embedded as eager `List Int` producers (the spec
notes laziness is a convenience, not a correctness requirement).  Python's
unbounded `int` is embedded as `Int`.
-/

namespace BinaryTreeTraversals

/-- `Node` dataclass: `data : int`, `left`, `right` optional children. -/
inductive Node : Type where
  | mk (data : Int) (left : Option Node) (right : Option Node)

def Node.data : Node → Int
  | .mk d _ _ => d

def Node.left : Node → Option Node
  | .mk _ l _ => l

def Node.right : Node → Option Node
  | .mk _ _ r => r

/-- `make_tree`: the fixed sample tree (root 1, children 2/3, grandchildren 4/5 under 2). -/
def make_tree : Option Node :=
  some (.mk 1 (some (.mk 2 (some (.mk 4 none none)) (some (.mk 5 none none))))
              (some (.mk 3 none none)))

/-- `preorder`: root, left, right; absent root yields nothing. -/
def preorder : Option Node → List Int
  | none => []
  | some (.mk d l r) => d :: (preorder l ++ preorder r)

/-- `postorder`: left, right, root; absent root yields nothing. -/
def postorder : Option Node → List Int
  | none => []
  | some (.mk d l r) => postorder l ++ postorder r ++ [d]

/-- `inorder`: left, root, right; absent root yields nothing. -/
def inorder : Option Node → List Int
  | none => []
  | some (.mk d l r) => inorder l ++ d :: inorder r

/-- `reverse_inorder`: right, root, left; absent root yields nothing. -/
def reverse_inorder : Option Node → List Int
  | none => []
  | some (.mk d l r) => reverse_inorder r ++ d :: reverse_inorder l

/-- `height(root) = max(height(root.left), height(root.right)) + 1 if root else 0`. -/
def height : Option Node → Int
  | none => 0
  | some (.mk _ l r) => max (height l) (height r) + 1

/-- Children actually enqueued by `level_order`: `left` if present, then `right` if present. -/
def childList (n : Node) : List Node :=
  n.left.toList ++ n.right.toList

/-- Size measure used only to justify termination of the queue loop. -/
def sizeO : Option Node → Nat
  | none => 0
  | some (.mk _ l r) => 1 + sizeO l + sizeO r

/-- Sum of subtree sizes over a queue of nodes. -/
def queueSize (q : List Node) : Nat :=
  (q.map (fun n => sizeO (some n))).sum

theorem sizeO_childList (d : Int) (l r : Option Node) :
    (List.map (fun n => sizeO (some n)) (childList (.mk d l r))).sum = sizeO l + sizeO r := by
  cases l <;> cases r <;>
    simp [childList, Node.left, Node.right, Option.toList, sizeO]

theorem queueSize_append (q₁ q₂ : List Node) :
    queueSize (q₁ ++ q₂) = queueSize q₁ + queueSize q₂ := by
  simp [queueSize]

/-- The `while process_queue:` loop of `level_order`: pop the front node, emit
its value, append its present children (left before right). -/
def level_order_go : List Node → List Int
  | [] => []
  | ⟨d, l, r⟩ :: rest => d :: level_order_go (rest ++ childList (.mk d l r))
termination_by q => queueSize q
decreasing_by
  simp only [queueSize, List.map_append, List.sum_append, sizeO_childList,
    List.map_cons, List.sum_cons, sizeO]
  omega

/-- `level_order`: breadth-first traversal via a FIFO queue seeded with the root. -/
def level_order : Option Node → List Int
  | none => []
  | some root => level_order_go [root]

/-- Inner `populate_output` of `get_nodes_from_left_to_right`: emit at `level == 1`,
recurse left then right when `level > 1`, nothing otherwise. -/
def populate_output_ltr : Option Node → Int → List Int
  | none, _ => []
  | some (.mk d l r), level =>
      if level = 1 then [d]
      else if level > 1 then
        populate_output_ltr l (level - 1) ++ populate_output_ltr r (level - 1)
      else []

/-- `get_nodes_from_left_to_right(root, level)`. -/
def get_nodes_from_left_to_right (root : Option Node) (level : Int) : List Int :=
  populate_output_ltr root level

/-- Inner `populate_output` of `get_nodes_from_right_to_left`: emit at `level == 1`,
recurse right then left when `level > 1`, nothing otherwise. -/
def populate_output_rtl : Option Node → Int → List Int
  | none, _ => []
  | some (.mk d l r), level =>
      if level = 1 then [d]
      else if level > 1 then
        populate_output_rtl r (level - 1) ++ populate_output_rtl l (level - 1)
      else []

/-- `get_nodes_from_right_to_left(root, level)`. -/
def get_nodes_from_right_to_left (root : Option Node) (level : Int) : List Int :=
  populate_output_rtl root level

/-- The `for h in range(1, height_tree + 1)` loop of `zigzag`, with the
direction `flag` threaded through (`flag = 0` picks left-to-right). -/
def zigzag_go (root : Node) : List Int → Bool → List Int
  | [], _ => []
  | h :: hs, flag =>
      if !flag then
        get_nodes_from_left_to_right (some root) h ++ zigzag_go root hs true
      else
        get_nodes_from_right_to_left (some root) h ++ zigzag_go root hs false

/-- `zigzag`: alternate per-depth direction from depth 1 to `height(root)`,
starting left-to-right. -/
def zigzag : Option Node → List Int
  | none => []
  | some root =>
      zigzag_go root ((List.range' 1 (height (some root)).toNat).map (fun d : Nat => (d : Int)))
        false

/-! ### Spec-side measures: node count and node-value multiset of a tree -/

/-- Number of nodes of the (optional) tree. -/
def nodeCount : Option Node → Nat
  | none => 0
  | some (.mk _ l r) => 1 + nodeCount l + nodeCount r

/-- Multiset of the node values of the (optional) tree. -/
def nodeMultiset : Option Node → Multiset Int
  | none => 0
  | some (.mk d l r) => d ::ₘ (nodeMultiset l + nodeMultiset r)

/-- Structural induction principle for optional trees. -/
theorem optNode_ind (motive : Option Node → Prop) (hnone : motive none)
    (hmk : ∀ d l r, motive l → motive r → motive (some (.mk d l r))) :
    ∀ t, motive t
  | none => hnone
  | some (.mk d l r) =>
      hmk d l r (optNode_ind motive hnone hmk l) (optNode_ind motive hnone hmk r)

/-! ### Depth-first traversals: multiset and length facts -/

theorem preorder_multiset (t : Option Node) :
    (preorder t : Multiset Int) = nodeMultiset t := by
  induction t using optNode_ind with
  | hnone => simp [preorder, nodeMultiset]
  | hmk d l r ihl ihr =>
      simp only [preorder, nodeMultiset, ← Multiset.cons_coe, ← Multiset.coe_add, ihl, ihr]

theorem postorder_multiset (t : Option Node) :
    (postorder t : Multiset Int) = nodeMultiset t := by
  induction t using optNode_ind with
  | hnone => simp [postorder, nodeMultiset]
  | hmk d l r ihl ihr =>
      simp only [postorder, nodeMultiset, ← Multiset.coe_add, ihl, ihr]
      simp only [← Multiset.singleton_add]
      abel

theorem inorder_multiset (t : Option Node) :
    (inorder t : Multiset Int) = nodeMultiset t := by
  induction t using optNode_ind with
  | hnone => simp [inorder, nodeMultiset]
  | hmk d l r ihl ihr =>
      simp only [inorder, nodeMultiset, ← Multiset.cons_coe, ← Multiset.coe_add, ihl, ihr]
      simp only [← Multiset.singleton_add]
      abel

theorem reverse_inorder_multiset (t : Option Node) :
    (reverse_inorder t : Multiset Int) = nodeMultiset t := by
  induction t using optNode_ind with
  | hnone => simp [reverse_inorder, nodeMultiset]
  | hmk d l r ihl ihr =>
      simp only [reverse_inorder, nodeMultiset, ← Multiset.cons_coe, ← Multiset.coe_add, ihl, ihr]
      simp only [← Multiset.singleton_add]
      abel

theorem card_nodeMultiset (t : Option Node) :
    Multiset.card (nodeMultiset t) = nodeCount t := by
  induction t using optNode_ind with
  | hnone => simp [nodeMultiset, nodeCount]
  | hmk d l r ihl ihr => simp only [nodeMultiset, nodeCount, Multiset.card_cons,
      Multiset.card_add, ihl, ihr]; omega

theorem length_of_multiset_eq {l : List Int} {t : Option Node}
    (h : (l : Multiset Int) = nodeMultiset t) : l.length = nodeCount t := by
  rw [← Multiset.coe_card, h, card_nodeMultiset]

/-! ### Reverse relationships -/

theorem reverse_inorder_eq_reverse (t : Option Node) :
    reverse_inorder t = (inorder t).reverse := by
  induction t using optNode_ind with
  | hnone => simp [reverse_inorder, inorder]
  | hmk d l r ihl ihr => simp [reverse_inorder, inorder, ihl, ihr]

theorem populate_rtl_eq_reverse (t : Option Node) (level : Int) :
    populate_output_rtl t level = (populate_output_ltr t level).reverse := by
  induction t using optNode_ind generalizing level with
  | hnone => simp [populate_output_rtl, populate_output_ltr]
  | hmk d l r ihl ihr =>
      simp only [populate_output_rtl, populate_output_ltr]
      by_cases h1 : level = 1
      · simp [h1]
      · by_cases h2 : level > 1 <;> simp [h1, h2, ihl, ihr]

/-! ### Height facts -/

theorem height_nonneg (t : Option Node) : 0 ≤ height t := by
  induction t using optNode_ind with
  | hnone => simp [height]
  | hmk d l r ihl ihr => simp only [height]; omega

theorem height_some_pos (n : Node) : 1 ≤ height (some n) := by
  obtain ⟨d, l, r⟩ := n
  have hl := height_nonneg l
  have hr := height_nonneg r
  simp only [height]
  omega

/-! ### Out-of-range levels -/

theorem populate_ltr_of_lt_one (t : Option Node) (level : Int) (h : level < 1) :
    populate_output_ltr t level = [] := by
  cases t with
  | none => simp [populate_output_ltr]
  | some n =>
      obtain ⟨d, l, r⟩ := n
      have h1 : level ≠ 1 := by omega
      have h2 : ¬ level > 1 := by omega
      simp [populate_output_ltr, h1, h2]

theorem populate_ltr_of_gt_height (t : Option Node) (level : Int) (h : height t < level) :
    populate_output_ltr t level = [] := by
  induction t using optNode_ind generalizing level with
  | hnone => simp [populate_output_ltr]
  | hmk d l r ihl ihr =>
      have hl := height_nonneg l
      have hr := height_nonneg r
      simp only [height] at h
      have h1 : level ≠ 1 := by omega
      have h2 : level > 1 := by omega
      simp only [populate_output_ltr, h1, if_false, h2, if_true]
      rw [ihl (level - 1) (by omega), ihr (level - 1) (by omega)]
      rfl

/-! ### Breadth-first traversal versus per-level traversal -/

theorem flatMap_singleton_map (l : List Node) (g : Node → Int) :
    l.flatMap (fun x => [g x]) = l.map g := by
  induction l with
  | nil => rfl
  | cons a l ih => simp [List.flatMap_cons, ih]

theorem level_order_go_split (q : List Node) :
    ∀ s, level_order_go (q ++ s) =
      q.map Node.data ++ level_order_go (s ++ q.flatMap childList) := by
  induction q with
  | nil => intro s; simp
  | cons n q ih =>
      intro s
      obtain ⟨d, l, r⟩ := n
      show level_order_go (Node.mk d l r :: (q ++ s)) = _
      rw [level_order_go, List.append_assoc, ih (s ++ childList (.mk d l r))]
      simp [Node.data, List.flatMap_cons, List.append_assoc]

theorem level_order_go_step (q : List Node) :
    level_order_go q = q.map Node.data ++ level_order_go (q.flatMap childList) := by
  have h := level_order_go_split q []
  simpa using h

theorem populate_ltr_one (n : Node) : populate_output_ltr (some n) 1 = [n.data] := by
  obtain ⟨d, l, r⟩ := n
  simp [populate_output_ltr, Node.data]

theorem populate_ltr_succ (n : Node) (dd : Int) (h : 1 ≤ dd) :
    populate_output_ltr (some n) (dd + 1) =
      (childList n).flatMap (fun c => populate_output_ltr (some c) dd) := by
  obtain ⟨d, l, r⟩ := n
  have h1 : dd + 1 ≠ 1 := by omega
  have h2 : dd + 1 > 1 := by omega
  simp only [populate_output_ltr, h1, if_false, h2, if_true, add_sub_cancel_right]
  cases l <;> cases r <;>
    simp [childList, Node.left, Node.right, populate_output_ltr]

theorem height_childList {n c : Node} (hc : c ∈ childList n) :
    height (some c) + 1 ≤ height (some n) := by
  obtain ⟨d, l, r⟩ := n
  simp only [childList, Node.left, Node.right, List.mem_append, Option.mem_toList,
    Option.mem_def] at hc
  have hmaxl := le_max_left (height l) (height r)
  have hmaxr := le_max_right (height l) (height r)
  rcases hc with hc | hc <;> subst hc <;> simp only [height] <;> omega

theorem level_order_go_levels (H : Nat) :
    ∀ q : List Node, (∀ n ∈ q, (height (some n)).toNat ≤ H) →
      level_order_go q =
        ((List.range H).map
          (fun (i : Nat) => q.flatMap (fun n => populate_output_ltr (some n) ((i : Int) + 1)))).flatten := by
  induction H with
  | zero =>
      intro q hq
      have hq0 : q = [] := by
        cases q with
        | nil => rfl
        | cons n q =>
            exfalso
            have h1 := height_some_pos n
            have h2 := hq n (List.mem_cons_self n q)
            omega
      subst hq0
      simp [level_order_go]
  | succ H ih =>
      intro q hq
      have hchild : ∀ n ∈ q.flatMap childList, (height (some n)).toNat ≤ H := by
        intro c hc
        rw [List.mem_flatMap] at hc
        obtain ⟨n, hn, hcn⟩ := hc
        have h1 := height_childList hcn
        have h2 := hq n hn
        have h3 := height_nonneg (some c)
        omega
      rw [level_order_go_step, List.range_succ_eq_map, List.map_cons, List.flatten_cons,
        ih (q.flatMap childList) hchild]
      congr 1
      · have hpop : (fun n => populate_output_ltr (some n) (((0 : Nat) : Int) + 1)) =
            (fun n : Node => [n.data]) := by
          funext n
          rw [show ((0 : Nat) : Int) + 1 = 1 by norm_num, populate_ltr_one]
        rw [hpop, flatMap_singleton_map]
      · rw [List.map_map]
        have hfun : (fun i : Nat => (q.flatMap childList).flatMap
              (fun n => populate_output_ltr (some n) ((i : Int) + 1))) =
            ((fun i : Nat => q.flatMap (fun n => populate_output_ltr (some n) ((i : Int) + 1)))
              ∘ Nat.succ) := by
          funext i
          simp only [Function.comp_apply]
          rw [List.flatMap_assoc]
          have hpop : (fun n => (childList n).flatMap
                (fun c => populate_output_ltr (some c) ((i : Int) + 1))) =
              (fun n => populate_output_ltr (some n) ((Nat.succ i : Int) + 1)) := by
            funext n
            rw [← populate_ltr_succ n ((i : Int) + 1) (by omega)]
            rw [show ((i : Int) + 1) + 1 = ((Nat.succ i : Int) + 1) by push_cast; ring]
          rw [hpop]
        rw [hfun]

/-- `level_order` emits, for each depth `d` from 1 to the height, the
left-to-right values at depth `d`, concatenated in increasing depth order. -/
theorem level_order_eq_flatten_levels (t : Option Node) :
    level_order t =
      ((List.range' 1 (height t).toNat).map
        (fun d : Nat => get_nodes_from_left_to_right t (d : Int))).flatten := by
  cases t with
  | none => simp [level_order, height]
  | some root =>
      have hcond : ∀ n ∈ [root], (height (some n)).toNat ≤ (height (some root)).toNat := by
        intro n hn
        rw [List.mem_singleton] at hn
        subst hn
        exact le_refl _
      have h := level_order_go_levels (height (some root)).toNat [root] hcond
      rw [level_order, h, List.range'_eq_map_range, List.map_map]
      have hfun : (fun i : Nat => [root].flatMap
            (fun n => populate_output_ltr (some n) ((i : Int) + 1))) =
          ((fun d : Nat => get_nodes_from_left_to_right (some root) (d : Int))
            ∘ (fun x => 1 + x)) := by
        funext i
        simp only [Function.comp_apply, List.flatMap_singleton, get_nodes_from_left_to_right]
        rw [show ((1 + i : Nat) : Int) = (i : Int) + 1 by push_cast; ring]
      rw [hfun]

/-! ### Multiset content of the breadth-first traversal -/

theorem multiset_flatten (L : List (List Int)) :
    (L.flatten : Multiset Int) = (L.map (fun (l : List Int) => (l : Multiset Int))).sum := by
  induction L with
  | nil => rfl
  | cons a L ih => rw [List.flatten_cons, ← Multiset.coe_add, List.map_cons, List.sum_cons, ih]

theorem nodeMultiset_childList (d : Int) (l r : Option Node) :
    ((childList (.mk d l r)).map (fun n => nodeMultiset (some n))).sum =
      nodeMultiset l + nodeMultiset r := by
  cases l <;> cases r <;>
    simp [childList, Node.left, Node.right, Option.toList, nodeMultiset]

theorem level_order_go_multiset :
    ∀ (k : Nat) (q : List Node), queueSize q ≤ k →
      (level_order_go q : Multiset Int) = (q.map (fun n => nodeMultiset (some n))).sum := by
  intro k
  induction k with
  | zero =>
      intro q h
      cases q with
      | nil => simp [level_order_go]
      | cons n rest =>
          exfalso
          obtain ⟨d, l, r⟩ := n
          simp only [queueSize, List.map_cons, List.sum_cons, sizeO] at h
          omega
  | succ k ih =>
      intro q h
      cases q with
      | nil => simp [level_order_go]
      | cons n rest =>
          obtain ⟨d, l, r⟩ := n
          have hsize : queueSize (rest ++ childList (.mk d l r)) ≤ k := by
            rw [queueSize_append]
            have hc : queueSize (childList (.mk d l r)) = sizeO l + sizeO r :=
              sizeO_childList d l r
            simp only [queueSize, List.map_cons, List.sum_cons, sizeO] at h ⊢
            simp only [queueSize] at hc
            omega
          rw [level_order_go, ← Multiset.cons_coe, ih _ hsize, List.map_append,
            List.sum_append, nodeMultiset_childList, List.map_cons, List.sum_cons]
          show d ::ₘ ((rest.map (fun n => nodeMultiset (some n))).sum +
              (nodeMultiset l + nodeMultiset r)) =
            nodeMultiset (some (.mk d l r)) + (rest.map (fun n => nodeMultiset (some n))).sum
          rw [nodeMultiset]
          rw [← Multiset.singleton_add, ← Multiset.singleton_add]
          abel

theorem level_order_multiset (t : Option Node) :
    (level_order t : Multiset Int) = nodeMultiset t := by
  cases t with
  | none => simp [level_order, nodeMultiset]
  | some root =>
      rw [level_order, level_order_go_multiset (queueSize [root]) [root] (le_refl _)]
      simp

/-! ### Zigzag: alternating per-level directions -/

theorem zigzag_go_alt (root : Node) :
    ∀ (H a : Nat) (flag : Bool), flag = decide (a % 2 = 0) →
      zigzag_go root ((List.range' a H).map (fun d : Nat => (d : Int))) flag =
        ((List.range' a H).map
          (fun d : Nat =>
            if d % 2 = 1 then get_nodes_from_left_to_right (some root) (d : Int)
            else get_nodes_from_right_to_left (some root) (d : Int))).flatten := by
  intro H
  induction H with
  | zero =>
      intro a flag hflag
      simp [zigzag_go]
  | succ H ih =>
      intro a flag hflag
      rw [List.range'_succ, List.map_cons, List.map_cons, List.flatten_cons]
      by_cases ha : a % 2 = 1
      · have hflag0 : flag = false := by
          rw [hflag]
          simp only [decide_eq_false_iff_not]
          omega
        subst hflag0
        rw [zigzag_go]
        rw [ih (a + 1) true (by rw [eq_comm, decide_eq_true_eq]; omega)]
        simp [ha]
      · have hflag1 : flag = true := by
          rw [hflag]
          simp only [decide_eq_true_eq]
          omega
        subst hflag1
        rw [zigzag_go]
        rw [ih (a + 1) false (by rw [eq_comm, decide_eq_false_iff_not]; omega)]
        simp [ha]

/-- `zigzag` is the concatenation over depths 1..height of the left-to-right
level at odd depths and the right-to-left level at even depths. -/
theorem zigzag_eq_alternating (t : Option Node) :
    zigzag t =
      ((List.range' 1 (height t).toNat).map
        (fun d : Nat =>
          if d % 2 = 1 then get_nodes_from_left_to_right t (d : Int)
          else get_nodes_from_right_to_left t (d : Int))).flatten := by
  cases t with
  | none => simp [zigzag, height]
  | some root =>
      rw [zigzag]
      exact zigzag_go_alt root (height (some root)).toNat 1 false (by decide)

theorem zigzag_multiset (t : Option Node) :
    (zigzag t : Multiset Int) = nodeMultiset t := by
  rw [zigzag_eq_alternating, multiset_flatten, ← level_order_multiset t,
    level_order_eq_flatten_levels t, multiset_flatten, List.map_map, List.map_map]
  have hfun : ((fun (l : List Int) => (l : Multiset Int)) ∘
        (fun d : Nat =>
          if d % 2 = 1 then get_nodes_from_left_to_right t (d : Int)
          else get_nodes_from_right_to_left t (d : Int))) =
      ((fun (l : List Int) => (l : Multiset Int)) ∘
        (fun d : Nat => get_nodes_from_left_to_right t (d : Int))) := by
    funext d
    simp only [Function.comp_apply]
    by_cases hd : d % 2 = 1
    · rw [if_pos hd]
    · rw [if_neg hd, get_nodes_from_right_to_left, get_nodes_from_left_to_right,
        populate_rtl_eq_reverse, Multiset.coe_reverse]
  rw [hfun]

/-! ### Claims -/

/-- C1: for every finite tree `t` with `nodeCount t` nodes, each of `preorder`,
`inorder`, `reverse_inorder`, `postorder`, and `level_order` produces a sequence
of exactly `nodeCount t` values whose multiset equals the multiset of node
values of `t`. -/
theorem claim_C1_traversals_complete (t : Option Node) :
    ((preorder t).length = nodeCount t ∧ (preorder t : Multiset Int) = nodeMultiset t) ∧
    ((inorder t).length = nodeCount t ∧ (inorder t : Multiset Int) = nodeMultiset t) ∧
    ((reverse_inorder t).length = nodeCount t ∧
      (reverse_inorder t : Multiset Int) = nodeMultiset t) ∧
    ((postorder t).length = nodeCount t ∧ (postorder t : Multiset Int) = nodeMultiset t) ∧
    ((level_order t).length = nodeCount t ∧ (level_order t : Multiset Int) = nodeMultiset t) :=
  ⟨⟨length_of_multiset_eq (preorder_multiset t), preorder_multiset t⟩,
   ⟨length_of_multiset_eq (inorder_multiset t), inorder_multiset t⟩,
   ⟨length_of_multiset_eq (reverse_inorder_multiset t), reverse_inorder_multiset t⟩,
   ⟨length_of_multiset_eq (postorder_multiset t), postorder_multiset t⟩,
   ⟨length_of_multiset_eq (level_order_multiset t), level_order_multiset t⟩⟩

/-- C2: for every tree `t`, `zigzag t` equals the concatenation, for depth `d`
from 1 to `height t`, of `get_nodes_from_left_to_right t d` when `d` is odd and
`get_nodes_from_right_to_left t d` when `d` is even. -/
theorem claim_C2_zigzag_alternating (t : Option Node) :
    zigzag t =
      ((List.range' 1 (height t).toNat).map
        (fun d : Nat =>
          if d % 2 = 1 then get_nodes_from_left_to_right t (d : Int)
          else get_nodes_from_right_to_left t (d : Int))).flatten :=
  zigzag_eq_alternating t

/-- C3: for every tree `t`, `reverse_inorder t` equals the reversal of
`inorder t`. -/
theorem claim_C3_reverse_inorder_is_reverse (t : Option Node) :
    reverse_inorder t = (inorder t).reverse :=
  reverse_inorder_eq_reverse t

/-- C4: for every tree `t` and integer level `L`,
`get_nodes_from_right_to_left t L` is the reversal of
`get_nodes_from_left_to_right t L`; in particular both return the same multiset
of values. -/
theorem claim_C4_rtl_is_reverse_of_ltr (t : Option Node) (L : Int) :
    get_nodes_from_right_to_left t L = (get_nodes_from_left_to_right t L).reverse ∧
    (get_nodes_from_right_to_left t L : Multiset Int) =
      (get_nodes_from_left_to_right t L : Multiset Int) := by
  refine ⟨populate_rtl_eq_reverse t L, ?_⟩
  rw [get_nodes_from_right_to_left, get_nodes_from_left_to_right, populate_rtl_eq_reverse,
    Multiset.coe_reverse]

/-- C5: `height` of an absent root is 0, of a single childless node is 1, and
for any node equals 1 plus the maximum of the children's heights; the result is
always a non-negative integer. -/
theorem claim_C5_height_spec :
    height none = 0 ∧
    (∀ d : Int, height (some (.mk d none none)) = 1) ∧
    (∀ (d : Int) (l r : Option Node),
      height (some (.mk d l r)) = 1 + max (height l) (height r)) ∧
    (∀ t : Option Node, 0 ≤ height t) :=
  ⟨by simp [height], fun d => by simp [height],
   fun d l r => by simp [height]; ring, height_nonneg⟩

/-- C6: for every tree `t` and integer `L` with `L < 1` or `L > height t`, both
directional single-level traversals return the empty sequence. -/
theorem claim_C6_out_of_range_empty (t : Option Node) (L : Int)
    (h : L < 1 ∨ L > height t) :
    get_nodes_from_left_to_right t L = [] ∧ get_nodes_from_right_to_left t L = [] := by
  have hltr : populate_output_ltr t L = [] := by
    rcases h with h | h
    · exact populate_ltr_of_lt_one t L h
    · exact populate_ltr_of_gt_height t L h
  refine ⟨hltr, ?_⟩
  rw [get_nodes_from_right_to_left, populate_rtl_eq_reverse, hltr]
  rfl

/-- C6 witness: level 5 exceeds the sample tree's height 3, and both
directional traversals there are empty. -/
theorem claim_C6_out_of_range_empty_witness :
    ((5 : Int) < 1 ∨ (5 : Int) > height make_tree) ∧
    (get_nodes_from_left_to_right make_tree 5 = [] ∧
      get_nodes_from_right_to_left make_tree 5 = []) :=
  ⟨Or.inr (by norm_num [height, make_tree]),
   claim_C6_out_of_range_empty make_tree 5 (Or.inr (by norm_num [height, make_tree]))⟩

/-- C7: on the empty tree (absent root), every traversal returns the empty
sequence and `height` returns 0. -/
theorem claim_C7_empty_tree :
    preorder none = [] ∧ inorder none = [] ∧ reverse_inorder none = [] ∧
    postorder none = [] ∧ level_order none = [] ∧
    (∀ L : Int, get_nodes_from_left_to_right none L = []) ∧
    (∀ L : Int, get_nodes_from_right_to_left none L = []) ∧
    zigzag none = [] ∧ height none = 0 :=
  ⟨by simp [preorder], by simp [inorder], by simp [reverse_inorder], by simp [postorder],
   by simp [level_order],
   fun L => by simp [get_nodes_from_left_to_right, populate_output_ltr],
   fun L => by simp [get_nodes_from_right_to_left, populate_output_rtl],
   by simp [zigzag], by simp [height]⟩

/-- C8 counterexample: on the fixed sample tree, `zigzag` does not yield
[1, 2, 3, 4, 5]. -/
theorem claim_C8_counterexample : zigzag make_tree ≠ [1, 2, 3, 4, 5] := by
  norm_num [zigzag, make_tree, height, zigzag_go, get_nodes_from_left_to_right,
    get_nodes_from_right_to_left, populate_output_ltr, populate_output_rtl, List.range']

/-- C8 (amended): on the fixed sample tree, `zigzag` yields [1, 3, 2, 4, 5]
(depth 1 left-to-right, depth 2 right-to-left, depth 3 left-to-right). -/
theorem claim_C8_zigzag_sample : zigzag make_tree = [1, 3, 2, 4, 5] := by
  norm_num [zigzag, make_tree, height, zigzag_go, get_nodes_from_left_to_right,
    get_nodes_from_right_to_left, populate_output_ltr, populate_output_rtl, List.range']

/-- C9: for every tree `t`, the queue-based `level_order t` equals the
concatenation, for depth `d` from 1 to `height t`, of
`get_nodes_from_left_to_right t d`. -/
theorem claim_C9_level_order_refines_levels (t : Option Node) :
    level_order t =
      ((List.range' 1 (height t).toNat).map
        (fun d : Nat => get_nodes_from_left_to_right t (d : Int))).flatten :=
  level_order_eq_flatten_levels t

/-- C10: for every tree `t` with `nodeCount t` nodes, `zigzag t` produces
exactly `nodeCount t` values whose multiset equals the multiset of node values
of `t`. -/
theorem claim_C10_zigzag_complete (t : Option Node) :
    (zigzag t).length = nodeCount t ∧ (zigzag t : Multiset Int) = nodeMultiset t :=
  ⟨length_of_multiset_eq (zigzag_multiset t), zigzag_multiset t⟩

end BinaryTreeTraversals
